import Mathlib

/-!
Verification of mcp2plugin against its natural-language specification.

The Python sources are shallowly embedded: strings are `List Char`,
pure functions become Lean functions, the two fixed regular expressions of
`utils/url_parser.py` are compiled by hand into deterministic matchers
(each hand-compilation step is justified in a comment), and results of
calls into external libraries (the HTTP client, BeautifulSoup DOM queries,
the `re` engine running over an arbitrary page, the Gemini API) are passed
in as explicit oracle values, so every theorem quantifies over all
possible behaviours of those collaborators.
-/

namespace Mcp2Plugin

/-! ## Character classes (Python `re` classes, ASCII fragment)

Python's `\s` on `str` also covers some Unicode space characters; the
claims under verification only ever depend on `'/'` membership and on
ASCII inputs, so the ASCII fragment is modelled. -/

def isSpaceChar (c : Char) : Bool :=
  c = ' ' || c = '\t' || c = '\n' || c = '\x0d' || c = '\x0b' || c = '\x0c'

/-- The regex class `[^/\s]` used by both URL patterns. -/
def urlClassChar (c : Char) : Bool :=
  !(c = '/') && !(isSpaceChar c)

/-! ## List-of-char primitives -/

/-- If `l` starts with `p`, return the remainder, else `none`
(the literal-matching step of a regex). -/
def stripHead (p l : List Char) : Option (List Char) :=
  match p, l with
  | [], rest => some rest
  | _ :: _, [] => none
  | c :: ps, d :: ls => if c = d then stripHead ps ls else none

def startsWithL (p l : List Char) : Bool := (stripHead p l).isSome

/-- Python's substring containment `p in l`. -/
def containsSub (p : List Char) : List Char → Bool
  | [] => p.isEmpty
  | c :: t => startsWithL p (c :: t) || containsSub p t

/-! ## `utils/url_parser.py`

`FASTMCP_PATTERN = https?://(?:www\.)?fastmcp\.me/MCP/Details/(\d+)/([^/\s]+)`
`SMITHERY_PATTERN = https?://(?:server\.)?smithery\.ai/(?:server/)?([^/\s]+)`

Both are used with `re.match` (anchored at the start, not the end). -/

def pHttp : List Char := ['h', 't', 't', 'p']
def pScheme1 : List Char := ['s', ':', '/', '/']
def pScheme2 : List Char := [':', '/', '/']
def pWww : List Char := ['w', 'w', 'w', '.']
def pFastHost : List Char :=
  ['f', 'a', 's', 't', 'm', 'c', 'p', '.', 'm', 'e', '/',
   'M', 'C', 'P', '/', 'D', 'e', 't', 'a', 'i', 'l', 's', '/']
def pServerDot : List Char := ['s', 'e', 'r', 'v', 'e', 'r', '.']
def pSmithHost : List Char :=
  ['s', 'm', 'i', 't', 'h', 'e', 'r', 'y', '.', 'a', 'i', '/']
def pServerSlash : List Char := ['s', 'e', 'r', 'v', 'e', 'r', '/']

theorem pFastHost_spec : pHttp ++ pScheme1 ++ pFastHost =
    "https://fastmcp.me/MCP/Details/".toList := by decide

theorem pSmithHost_spec : pHttp ++ pScheme1 ++ pSmithHost =
    "https://smithery.ai/".toList := by decide

/-- Match of `FASTMCP_PATTERN` at the start of `l`, returning the two
capture groups.  Hand-compilation notes:
* `https?` then `://`: the alternatives `s://` and `://` diverge at their
  first character (`'s'` vs `':'`), so first-success alternation equals
  backtracking.
* `(?:www\.)?`: consuming `www.` and the continuation `fastmcp…` diverge
  at their first character (`'w'` vs `'f'`), so if the greedy branch
  consumes `www.` and the continuation later fails, the non-consuming
  branch fails as well; `getD` is therefore faithful.
* `(\d+)/`: `'/'` is not a digit, so the greedy maximal digit run
  followed by the literal `'/'` needs no backtracking.
* `([^/\s]+)` at the end of the pattern: the match succeeds iff at least
  one class character follows; the greedy capture is the maximal run. -/
def matchFastmcp (l : List Char) : Option (List Char × List Char) :=
  match stripHead pHttp l with
  | none => none
  | some r1 =>
    match (stripHead pScheme1 r1).orElse (fun _ => stripHead pScheme2 r1) with
    | none => none
    | some r2 =>
      match stripHead pFastHost ((stripHead pWww r2).getD r2) with
      | none => none
      | some r4 =>
        let ds := r4.takeWhile Char.isDigit
        if ds.isEmpty then none
        else
          match stripHead ['/'] (r4.dropWhile Char.isDigit) with
          | none => none
          | some r6 =>
            let ns := r6.takeWhile urlClassChar
            if ns.isEmpty then none else some (ds, ns)

/-- Match of `SMITHERY_PATTERN` at the start of `l`, returning the capture
group.  Hand-compilation notes:
* `(?:server\.)?smithery`: the alternatives diverge at their second
  character (`'e'` vs `'m'`), so `getD` is faithful (as for `www.` above).
* `(?:server/)?([^/\s]+)`: genuine backtracking — the greedy branch
  consumes `server/` and demands a following class character; when that
  fails the engine retries without consuming, capturing from `server…`
  itself. Both branches are written out. -/
def matchSmithery (l : List Char) : Option (List Char) :=
  match stripHead pHttp l with
  | none => none
  | some r1 =>
    match (stripHead pScheme1 r1).orElse (fun _ => stripHead pScheme2 r1) with
    | none => none
    | some r2 =>
      match stripHead pSmithHost ((stripHead pServerDot r2).getD r2) with
      | none => none
      | some r4 =>
        match stripHead pServerSlash r4 with
        | some r5 =>
          let ns := r5.takeWhile urlClassChar
          if ns.isEmpty then
            let ms := r4.takeWhile urlClassChar
            if ms.isEmpty then none else some ms
          else some ns
        | none =>
          let ms := r4.takeWhile urlClassChar
          if ms.isEmpty then none else some ms

inductive SourceType
  | FASTMCP
  | SMITHERY
  | UNKNOWN
deriving DecidableEq, Repr

/-- `url_parser.detect_source`. -/
def detect_source (l : List Char) : SourceType :=
  if (matchFastmcp l).isSome then .FASTMCP
  else if (matchSmithery l).isSome then .SMITHERY
  else .UNKNOWN

/-- `FastMCPSource.can_handle`: `bool(FASTMCP_PATTERN.match(url))`. -/
def fastmcp_can_handle (l : List Char) : Bool := (matchFastmcp l).isSome

/-- `SmitherySource.can_handle`: `bool(SMITHERY_PATTERN.match(url))`. -/
def smithery_can_handle (l : List Char) : Bool := (matchSmithery l).isSome

/-! ### `normalize_url` -/

/-- The pattern `server\.smithery\.ai/` whose capture feeds the rewrite
(the final `/` belongs to `re.search(r"server\.smithery\.ai/([^/\s]+)")`). -/
def redirPat : List Char :=
  ['s', 'e', 'r', 'v', 'e', 'r', '.', 's', 'm', 'i', 't', 'h', 'e', 'r',
   'y', '.', 'a', 'i', '/']

/-- The substring tested by `if "server.smithery.ai" in url`. -/
def checkPat : List Char :=
  ['s', 'e', 'r', 'v', 'e', 'r', '.', 's', 'm', 'i', 't', 'h', 'e', 'r',
   'y', '.', 'a', 'i']

theorem redirPat_spec : redirPat = "server.smithery.ai/".toList := by decide

/-- `re.search(r"server\.smithery\.ai/([^/\s]+)", url)`: leftmost position
where the literal is followed by at least one class character; the capture
is the maximal class run there. A position where the literal matches but
no class character follows is skipped, and the engine advances by one. -/
def searchRedirect : List Char → Option (List Char)
  | [] => none
  | c :: t =>
    match stripHead redirPat (c :: t) with
    | some rest =>
      let ns := rest.takeWhile urlClassChar
      if ns.isEmpty then searchRedirect t else some ns
    | none => searchRedirect t

def smitheryCanon : List Char :=
  ['h', 't', 't', 'p', 's', ':', '/', '/', 's', 'm', 'i', 't', 'h', 'e',
   'r', 'y', '.', 'a', 'i', '/', 's', 'e', 'r', 'v', 'e', 'r', '/']

theorem smitheryCanon_spec : smitheryCanon = "https://smithery.ai/server/".toList := by
  decide

/-- `url_parser.normalize_url`. -/
def normalize_url (u : List Char) : List Char :=
  if containsSub checkPat u then
    match searchRedirect u with
    | some name => smitheryCanon ++ name
    | none => u
  else u

/-! ### Lemmas about the primitives -/

theorem stripHead_eq_append (p : List Char) :
    ∀ l r : List Char, stripHead p l = some r → l = p ++ r := by
  induction p with
  | nil => intro l r h; simpa [stripHead] using h
  | cons c ps ih =>
    intro l r h
    cases l with
    | nil => simp [stripHead] at h
    | cons d ls =>
      by_cases hcd : c = d
      · subst hcd
        simp only [stripHead, if_pos rfl] at h
        simpa using ih ls r h
      · simp [stripHead, hcd] at h

theorem takeWhile_all (p : Char → Bool) (l : List Char)
    (h : ∀ c ∈ l, p c = true) : l.takeWhile p = l := by
  induction l with
  | nil => rfl
  | cons c t ih =>
    have hc : p c = true := h c (by simp)
    simp [List.takeWhile_cons, hc, ih fun d hd => h d (by simp [hd])]

theorem searchRedirect_class (l : List Char) (ns : List Char)
    (h : searchRedirect l = some ns) :
    ns ≠ [] ∧ ∀ c ∈ ns, urlClassChar c = true := by
  induction l with
  | nil => simp [searchRedirect] at h
  | cons c t ih =>
    rw [searchRedirect] at h
    cases hm : stripHead redirPat (c :: t) with
    | none => rw [hm] at h; exact ih h
    | some rest =>
      rw [hm] at h
      dsimp only at h
      by_cases he : (rest.takeWhile urlClassChar).isEmpty
      · rw [if_pos he] at h; exact ih h
      · rw [if_neg he] at h
        obtain rfl : rest.takeWhile urlClassChar = ns := by
          simpa using h
        refine ⟨fun hnil => he (by simp [hnil]), ?_⟩
        intro d hd
        exact List.mem_takeWhile_imp hd

theorem searchRedirect_none (l : List Char) (h : ∀ c ∈ l, ¬c = '/') :
    searchRedirect l = none := by
  induction l with
  | nil => rfl
  | cons c t ih =>
    rw [searchRedirect]
    cases hm : stripHead redirPat (c :: t) with
    | some rest =>
      exfalso
      have hl : c :: t = redirPat ++ rest := stripHead_eq_append _ _ _ hm
      have : ('/' : Char) ∈ c :: t := by
        rw [hl]
        exact List.mem_append_left _ (by decide)
      exact h _ this rfl
    | none => exact ih fun d hd => h d (by simp [hd])

theorem searchRedirect_canon (ns : List Char)
    (h : ∀ c ∈ ns, urlClassChar c = true) :
    searchRedirect (smitheryCanon ++ ns) = none := by
  have hns : searchRedirect ns = none := by
    refine searchRedirect_none ns fun c hc hcs => ?_
    have := h c hc
    rw [hcs] at this
    simp [urlClassChar] at this
  simp only [smitheryCanon, List.cons_append, List.nil_append]
  simp [searchRedirect, stripHead, redirPat, hns]

theorem normalize_of_searchRedirect_none (u : List Char)
    (h : searchRedirect u = none) : normalize_url u = u := by
  simp [normalize_url, h]

/-- C6: `normalize_url` is idempotent. For every input `u`,
`normalize_url (normalize_url u) = normalize_url u`. -/
theorem normalize_url_idempotent (u : List Char) :
    normalize_url (normalize_url u) = normalize_url u := by
  cases hs : searchRedirect u with
  | none =>
    have h1 : normalize_url u = u := normalize_of_searchRedirect_none u hs
    rw [h1]; exact h1
  | some ns =>
    by_cases hc : containsSub checkPat u
    · have h1 : normalize_url u = smitheryCanon ++ ns := by
        simp [normalize_url, hc, hs]
      have hcl := searchRedirect_class u ns hs
      have h2 : searchRedirect (smitheryCanon ++ ns) = none :=
        searchRedirect_canon ns hcl.2
      rw [h1, normalize_of_searchRedirect_none _ h2]
    · have h1 : normalize_url u = u := by simp [normalize_url, hc]
      rw [h1]; exact h1

theorem takeWhile_append_all (p : Char → Bool) (a b : List Char)
    (h : ∀ c ∈ a, p c = true) :
    (a ++ b).takeWhile p = a ++ b.takeWhile p ∧
      (a ++ b).dropWhile p = b.dropWhile p := by
  induction a with
  | nil => simp
  | cons c t ih =>
    have hc : p c = true := h c (by simp)
    have iht := ih fun d hd => h d (by simp [hd])
    simp [List.takeWhile_cons, List.dropWhile_cons, hc, iht.1, iht.2]

/-- The spec's source-A template `https://fastmcp.me/MCP/Details/{id}/{name}`,
instantiated at an id segment and a name segment (spec-side definition,
compared against the matcher compiled from the source). -/
def fastmcpDetailsURL (idPart namePart : List Char) : List Char :=
  pHttp ++ pScheme1 ++ pFastHost ++ idPart ++ '/' :: namePart

theorem fastmcpDetailsURL_spec :
    fastmcpDetailsURL "217".toList "repomix".toList =
      "https://fastmcp.me/MCP/Details/217/repomix".toList := by decide

theorem matchFastmcp_template (idPart namePart : List Char)
    (h1 : idPart ≠ []) (h2 : ∀ c ∈ idPart, c.isDigit = true)
    (h3 : namePart ≠ []) (h4 : ∀ c ∈ namePart, urlClassChar c = true) :
    matchFastmcp (fastmcpDetailsURL idPart namePart) =
      some (idPart, namePart) := by
  have htake : (idPart ++ '/' :: namePart).takeWhile Char.isDigit = idPart := by
    rw [(takeWhile_append_all Char.isDigit idPart ('/' :: namePart) h2).1]
    simp [List.takeWhile_cons]
  have hdrop :
      (idPart ++ '/' :: namePart).dropWhile Char.isDigit = '/' :: namePart := by
    rw [(takeWhile_append_all Char.isDigit idPart ('/' :: namePart) h2).2]
    simp [List.dropWhile_cons]
  have hname : namePart.takeWhile urlClassChar = namePart :=
    takeWhile_all _ _ h4
  have hid : idPart.isEmpty = false := by
    cases idPart with
    | nil => exact absurd rfl h1
    | cons _ _ => rfl
  have hnm : namePart.isEmpty = false := by
    cases namePart with
    | nil => exact absurd rfl h3
    | cons _ _ => rfl
  simp only [fastmcpDetailsURL, pHttp, pScheme1, pFastHost,
    List.cons_append, List.nil_append]
  simp [matchFastmcp, stripHead, pHttp, pScheme1, pScheme2, pWww, pFastHost,
    htake, hdrop, hname, hid, hnm]

/-- C5: every URL of the source-A (fastmcp.me) template is classified as
FASTMCP by `detect_source` and accepted by `FastMCPSource.can_handle`;
a string on which neither pattern matches is classified UNKNOWN. -/
theorem detect_source_templates :
    (∀ idPart namePart : List Char, idPart ≠ [] →
      (∀ c ∈ idPart, c.isDigit = true) → namePart ≠ [] →
      (∀ c ∈ namePart, urlClassChar c = true) →
      detect_source (fastmcpDetailsURL idPart namePart) = .FASTMCP ∧
        fastmcp_can_handle (fastmcpDetailsURL idPart namePart) = true) ∧
    (∀ s : List Char, matchFastmcp s = none → matchSmithery s = none →
      detect_source s = .UNKNOWN) := by
  constructor
  · intro idPart namePart h1 h2 h3 h4
    have hm := matchFastmcp_template idPart namePart h1 h2 h3 h4
    constructor
    · simp [detect_source, hm]
    · simp [fastmcp_can_handle, hm]
  · intro s hf hs
    simp [detect_source, hf, hs]

/-- Witness for C5 at the concrete URL
`https://fastmcp.me/MCP/Details/217/repomix`. -/
theorem detect_source_templates_witness :
    detect_source (fastmcpDetailsURL "217".toList "repomix".toList) =
        .FASTMCP ∧
      fastmcp_can_handle (fastmcpDetailsURL "217".toList "repomix".toList) =
        true :=
  detect_source_templates.1 "217".toList "repomix".toList (by decide)
    (by decide) (by decide) (by decide)

/-! ## Data model (`models/mcp_info.py`) -/

structure MCPTool where
  name : String
  description : String := ""
deriving DecidableEq, Repr

structure MCPInfo where
  name : String
  description : String := ""
  author : String := ""
  tools : List MCPTool := []
  install_command : String := ""
  install_args : List String := []
  connection_type : String := "stdio"
  http_url : Option String := none
  env_vars : List String := []
  homepage : Option String := none
  source_url : String
deriving DecidableEq, Repr

/-- Python's substring test `needle in hay` on strings. -/
def strContains (hay needle : String) : Bool :=
  containsSub needle.toList hay.toList

/-- Python `str.lower()`, character-wise (ASCII fragment; the inputs the
claims touch are ASCII). -/
def strLower (s : String) : String := ⟨s.toList.map Char.toLower⟩

/-! ## `sources/fastmcp.py`

DOM queries and `re` searches over an arbitrary fetched page are external
behaviour; their results enter as an oracle record, one field per query
site in `FastMCPSource.fetch` and its helpers.  Each `Option String`
models one `re.search`/`soup.find` outcome (the captured group / text, or
`none` when the query found nothing). -/

structure FastPageOracle where
  /-- `soup.find("h1")` text, when an `h1` exists. -/
  title : Option String := none
  /-- content of `<meta name="description">`, when the tag exists. -/
  metaDescription : Option String := none
  /-- text of the description/summary paragraph fallback. -/
  paraDescription : Option String := none
  /-- the `@(\w+)` author capture. -/
  authorHandle : Option String := none
  /-- tools discovered by the `_extract_tools` DOM walk, pre-cap. -/
  toolItems : List MCPTool := []
  /-- capture of `npx\s+-y\s+([^\s<"']+)` over the page text. -/
  npxMatch : Option String := none
  /-- capture of `uvx\s+([^\s<"']+)`. -/
  uvxMatch : Option String := none
  /-- capture of `bunx\s+([^\s<"']+)`. -/
  bunxMatch : Option String := none
  /-- capture of `npm\s+exec\s+([^\s<"']+)`. -/
  npmExecMatch : Option String := none
  /-- match of `@[^/\s]+/{mcp_name}` (fallback package pattern 1). -/
  pkgScopedMatch : Option String := none
  /-- match of `mcp-server-{mcp_name}` (fallback package pattern 2). -/
  pkgServerMatch : Option String := none
  /-- match of `{mcp_name}-mcp` (fallback package pattern 3). -/
  pkgMcpMatch : Option String := none
  /-- per text node matching the http/endpoint/api regex: the URL
  extracted from it by `re.search(r"(https?://[^\s\"'<>]+)")`, if any. -/
  httpCandidates : List (Option String) := []
  /-- concatenated `re.findall` captures of the four env-var patterns. -/
  envMatches : List String := []
  /-- href of the first `github.com` anchor. -/
  githubHref : Option String := none

/-- `FastMCPSource._extract_install_command`: ordered command patterns,
first match wins, then the three package-name fallbacks, then the
synthesized default. -/
def fastmcp_extract_install_command (o : FastPageOracle) (mcp_name : String) :
    String × List String :=
  match o.npxMatch with
  | some p => ("npx", ["-y", p])
  | none =>
    match o.uvxMatch with
    | some p => ("uvx", [p])
    | none =>
      match o.bunxMatch with
      | some p => ("bunx", [p])
      | none =>
        match o.npmExecMatch with
        | some p => ("npm", ["exec", p])
        | none =>
          match o.pkgScopedMatch with
          | some m => ("npx", ["-y", m])
          | none =>
            match o.pkgServerMatch with
            | some m => ("npx", ["-y", m])
            | none =>
              match o.pkgMcpMatch with
              | some m => ("npx", ["-y", m])
              | none => ("npx", ["-y", "mcp-server-" ++ strLower mcp_name])

/-- The connection-type loop of `FastMCPSource.fetch` (lines 73-84):
starts at `("stdio", none)`; the first candidate whose extracted URL
contains `"mcp"` (lowercased) upgrades to http and breaks; candidates
without an extracted URL or without `"mcp"` are skipped. -/
def fastmcp_connection : List (Option String) → String × Option String
  | [] => ("stdio", none)
  | none :: rest => fastmcp_connection rest
  | some u :: rest =>
    if strContains (strLower u) "mcp" then ("http", some u)
    else fastmcp_connection rest

/-- `FastMCPSource._extract_env_vars` stoplist test:
`any(x in match.lower() for x in ["url", "uri", "http", "json", "xml"])`. -/
def fastmcpEnvStop (v : String) : Bool :=
  ["url", "uri", "http", "json", "xml"].any fun x => strContains (strLower v) x

/-- The accumulation loop of `FastMCPSource._extract_env_vars`. -/
def fastmcp_env_loop : List String → List String → List String
  | acc, [] => acc
  | acc, m :: ms =>
    if !acc.contains m && decide (3 < m.length) && !fastmcpEnvStop m then
      fastmcp_env_loop (acc ++ [m]) ms
    else fastmcp_env_loop acc ms

/-- `FastMCPSource._extract_env_vars`: loop, then
`list(set(env_vars))[:10]`.  Python's set iteration order is unspecified;
`dedup` (keep first occurrence) is one admissible order, and no theorem
below depends on the order. -/
def fastmcp_extract_env_vars (ms : List String) : List String :=
  ((fastmcp_env_loop [] ms).dedup).take 10

/-- `FastMCPSource.fetch`, given the oracle for one fetched page, the
mcp name captured from the URL, and the URL itself. -/
def fastmcp_fetch (o : FastPageOracle) (mcp_name url : String) : MCPInfo :=
  let display_name := match o.title with
    | some t => t
    | none => mcp_name
  let description := match o.metaDescription with
    | some d => if d = "" then (o.paraDescription).getD "" else d
    | none => (o.paraDescription).getD ""
  let cmd := fastmcp_extract_install_command o mcp_name
  let conn := fastmcp_connection o.httpCandidates
  { name := if display_name = "" then mcp_name else display_name
    description := description
    author := (o.authorHandle).getD ""
    tools := o.toolItems.take 20
    install_command := cmd.1
    install_args := cmd.2
    connection_type := conn.1
    http_url := conn.2
    env_vars := fastmcp_extract_env_vars o.envMatches
    homepage := o.githubHref
    source_url := url }

/-! ## `sources/smithery.py` -/

structure SmithPageOracle where
  /-- `soup.find("h1")` text, when an `h1` exists. -/
  title : Option String := none
  /-- content of `<meta name="description">`, when the tag exists. -/
  metaDescription : Option String := none
  /-- text of the first `<p>` (pre-truncation). -/
  paraDescription : Option String := none
  /-- the author capture. -/
  authorHandle : Option String := none
  /-- tools discovered by the `_extract_tools` DOM/code walk, pre-cap. -/
  toolItems : List MCPTool := []
  /-- whether `re.search(r"hosted|remote|cloud|server\.smithery\.ai")`
  hits the page text. -/
  hostedIndicator : Bool := false
  /-- capture of `npx\s+@smithery/cli\s+install\s+([^\s]+)`. -/
  smitheryCliMatch : Option String := none
  /-- capture of `npx\s+-y\s+([^\s<"']+)`. -/
  npxYMatch : Option String := none
  /-- capture of `npm\s+install\s+([^\s]+)`. -/
  npmInstallMatch : Option String := none
  /-- concatenated captures of the env-var patterns (config sections and
  whole-page patterns, in code order). -/
  envMatches : List String := []
  /-- href of the first `github.com` anchor. -/
  githubHref : Option String := none

/-- `SmitherySource._determine_connection`: hosted indicator first, then
ordered install patterns, then the smithery-CLI default.
Returns `(connection_type, install_command, install_args, http_url)`. -/
def smithery_determine_connection (o : SmithPageOracle)
    (server_name : String) : String × String × List String × Option String :=
  if o.hostedIndicator then
    ("http", "", [], some ("https://server.smithery.ai/" ++ server_name))
  else
    match o.smitheryCliMatch with
    | some p => ("stdio", "npx", ["-y", "@smithery/cli", "run", p], none)
    | none =>
      match o.npxYMatch with
      | some p => ("stdio", "npx", ["-y", p], none)
      | none =>
        match o.npmInstallMatch with
        | some p => ("stdio", "npx", ["-y", p], none)
        | none =>
          ("stdio", "npx", ["-y", "@smithery/cli", "run", server_name], none)

/-- `SmitherySource._extract_env_vars` stoplist test:
`any(x in var.lower() for x in ["type", "string", "number", "boolean"])`. -/
def smitheryEnvStop (v : String) : Bool :=
  ["type", "string", "number", "boolean"].any fun x => strContains (strLower v) x

/-- `SmitherySource._extract_env_vars`: iterate `set(env_vars)`, keep
entries longer than 3 characters that miss the stoplist, cap at 10.
As above, `dedup` stands in for the unspecified set iteration order. -/
def smithery_extract_env_vars (ms : List String) : List String :=
  ((ms.dedup).filter fun v => decide (3 < v.length) && !smitheryEnvStop v).take 10

/-- `SmitherySource.fetch`, given the oracle for one fetched page, the
server name captured from the URL, and the URL itself. -/
def smithery_fetch (o : SmithPageOracle) (server_name url : String) : MCPInfo :=
  let display_name := match o.title with
    | some t => t
    | none => server_name
  let description := match o.metaDescription with
    | some d => if d = "" then ((o.paraDescription).getD "").take 500 else d
    | none => ((o.paraDescription).getD "").take 500
  let conn := smithery_determine_connection o server_name
  { name := if display_name = "" then server_name else display_name
    description := description
    author := (o.authorHandle).getD ""
    tools := o.toolItems.take 20
    install_command := conn.2.1
    install_args := conn.2.2.1
    connection_type := conn.1
    http_url := conn.2.2.2
    env_vars := smithery_extract_env_vars o.envMatches
    homepage := o.githubHref
    source_url := url }

/-! ### C1: the ServerRecord invariant -/

/-- The spec's data-model invariant on a ServerRecord. -/
def recordInvariant (r : MCPInfo) : Prop :=
  (r.connection_type = "http" → r.http_url ≠ none) ∧
  (r.connection_type = "stdio" → r.install_command ≠ "")

theorem fastmcp_extract_install_command_ne (o : FastPageOracle)
    (mcp_name : String) :
    (fastmcp_extract_install_command o mcp_name).1 ≠ "" := by
  unfold fastmcp_extract_install_command
  cases o.npxMatch <;> cases o.uvxMatch <;> cases o.bunxMatch <;>
    cases o.npmExecMatch <;> cases o.pkgScopedMatch <;>
    cases o.pkgServerMatch <;> cases o.pkgMcpMatch <;> simp

theorem fastmcp_connection_cases (cands : List (Option String)) :
    fastmcp_connection cands = ("stdio", none) ∨
      ∃ u, fastmcp_connection cands = ("http", some u) := by
  induction cands with
  | nil => left; rfl
  | cons c rest ih =>
    cases c with
    | none => simpa [fastmcp_connection] using ih
    | some u =>
      by_cases h : strContains (strLower u) "mcp"
      · right; exact ⟨u, by simp [fastmcp_connection, h]⟩
      · simpa [fastmcp_connection, h] using ih

/-- C1: every record produced by either extractor's fetch satisfies the
data-model invariant: `connection_type = "http"` implies `http_url` is
present, and `connection_type = "stdio"` implies `install_command` is
non-empty (the synthesized `npx -y mcp-server-<name>` default covers
pages where no command pattern matches). -/
theorem fetch_record_invariant :
    (∀ (o : FastPageOracle) (mcp_name url : String),
      recordInvariant (fastmcp_fetch o mcp_name url)) ∧
    (∀ (o : SmithPageOracle) (server_name url : String),
      recordInvariant (smithery_fetch o server_name url)) := by
  constructor
  · intro o mcp_name url
    have hcmd := fastmcp_extract_install_command_ne o mcp_name
    rcases fastmcp_connection_cases o.httpCandidates with hconn | ⟨u, hconn⟩
    · exact ⟨fun h => by simp [fastmcp_fetch, hconn] at h,
        fun _ => by simpa [fastmcp_fetch, hconn] using hcmd⟩
    · exact ⟨fun _ => by simp [fastmcp_fetch, hconn],
        fun h => by simp [fastmcp_fetch, hconn] at h⟩
  · intro o server_name url
    unfold smithery_fetch smithery_determine_connection
    by_cases hh : o.hostedIndicator <;>
      [skip;
       cases o.smitheryCliMatch <;> cases o.npxYMatch <;>
         cases o.npmInstallMatch] <;>
      exact ⟨fun _ => by simp_all, fun _ => by simp_all⟩

/-- Witness for C1: a fastmcp page with no matching command pattern
yields a stdio record with the synthesized non-empty command, and a
smithery page with a hosted indicator yields an http record with a URL. -/
theorem fetch_record_invariant_witness :
    (fastmcp_fetch {} "repomix" "u").install_command ≠ "" ∧
      (smithery_fetch { hostedIndicator := true } "exa" "u").http_url ≠
        none :=
  ⟨(fetch_record_invariant.1 {} "repomix" "u").2 (by decide),
   (fetch_record_invariant.2 { hostedIndicator := true } "exa" "u").1
     (by decide)⟩

/-! ## `llm/gemini.py`: `GeminiParser.enhance_mcp_info`

The Gemini call and JSON parse are external behaviour.  `none` models the
whole try-block raising (network failure, non-JSON response, or a
malformed tool entry): the except-handler then returns the input record.
A raise part-way through the merge yields a prefix of the four gated
updates, each gated exactly as below, so the per-field statements proved
here cover those traces as well. -/

/-- The parsed enhancement JSON: `enhancements.get(key)` per key
(`none` when the key is absent). -/
structure Enhancements where
  description : Option String := none
  tools : Option (List MCPTool) := none
  install_command : Option String := none
  install_args : Option (List String) := none

/-- Python truthiness of an optional string: `None` and `""` are both
falsy (used for `enhancements.get("…")` and for `mcp_info.http_url`). -/
def truthyStr : Option String → Bool
  | some s => !(s = "")
  | none => false

/-- Python truthiness of `enhancements.get("…")` for a list field. -/
def truthyList {α : Type} : Option (List α) → Bool
  | some l => !l.isEmpty
  | none => false

/-- `GeminiParser.enhance_mcp_info`.  Returns the resulting record and
whether the model API was called (`response` is the parsed reply of that
call, `none` when the try-block raised). -/
def enhance_mcp_info (info : MCPInfo) (response : Option Enhancements) :
    MCPInfo × Bool :=
  let needs_enhancement :=
    info.description = "" ∨ info.tools = [] ∨ info.install_command = ""
  if ¬needs_enhancement then (info, false)
  else
    match response with
    | none => (info, true)
    | some e =>
      let i1 := if info.description = "" ∧ truthyStr e.description then
          { info with description := e.description.getD "" } else info
      let i2 := if info.tools = [] ∧ truthyList e.tools then
          { i1 with tools := e.tools.getD [] } else i1
      let i3 := if info.install_command = "" ∧ truthyStr e.install_command
          then { i2 with install_command := e.install_command.getD "" }
          else i2
      let i4 := if info.install_args = [] ∧ truthyList e.install_args then
          { i3 with install_args := e.install_args.getD [] } else i3
      (i4, true)

/-- C3: `enhance_mcp_info` fills `description`, `tools`,
`install_command`, `install_args` only when the corresponding input field
is empty, never replaces a present value, leaves every other field
unchanged, and when `description`, `tools` and `install_command` are all
non-empty it returns the input unchanged without calling the model. -/
theorem enhance_mcp_info_frame (info : MCPInfo)
    (response : Option Enhancements) :
    ((enhance_mcp_info info response).1.name = info.name ∧
      (enhance_mcp_info info response).1.author = info.author ∧
      (enhance_mcp_info info response).1.connection_type =
        info.connection_type ∧
      (enhance_mcp_info info response).1.http_url = info.http_url ∧
      (enhance_mcp_info info response).1.env_vars = info.env_vars ∧
      (enhance_mcp_info info response).1.homepage = info.homepage ∧
      (enhance_mcp_info info response).1.source_url = info.source_url) ∧
    (info.description ≠ "" →
      (enhance_mcp_info info response).1.description = info.description) ∧
    (info.tools ≠ [] →
      (enhance_mcp_info info response).1.tools = info.tools) ∧
    (info.install_command ≠ "" →
      (enhance_mcp_info info response).1.install_command =
        info.install_command) ∧
    (info.install_args ≠ [] →
      (enhance_mcp_info info response).1.install_args =
        info.install_args) ∧
    (info.description ≠ "" → info.tools ≠ [] → info.install_command ≠ "" →
      enhance_mcp_info info response = (info, false)) := by
  unfold enhance_mcp_info
  by_cases hd : info.description = "" <;>
    by_cases ht : info.tools = ([] : List MCPTool) <;>
      by_cases hc : info.install_command = "" <;>
        by_cases ha : info.install_args = ([] : List String) <;>
          cases response <;>
            simp_all <;>
              split <;> simp_all <;> split <;> simp_all <;>
                split <;> simp_all <;> split <;> simp_all

/-- Witness for C3: a fully-populated record passes through unchanged
with no model call, even when an enhancement response is available. -/
theorem enhance_mcp_info_frame_witness :
    enhance_mcp_info
        { name := "n", description := "d", tools := [{ name := "t" }],
          install_command := "npx", source_url := "u" }
        (some { description := some "other" }) =
      ({ name := "n", description := "d", tools := [{ name := "t" }],
          install_command := "npx", source_url := "u" }, false) :=
  (enhance_mcp_info_frame
      { name := "n", description := "d", tools := [{ name := "t" }],
        install_command := "npx", source_url := "u" }
      (some { description := some "other" })).2.2.2.2.2
    (by decide) (by decide) (by decide)

/-! ## `models/plugin.py` and `core/plugin_generator.py` -/

/-- JSON values appearing in a serialized `MCPServerConfig`. -/
inductive JVal where
  | str : String → JVal
  | arr : List String → JVal
  | obj : List (String × String) → JVal
deriving DecidableEq, Repr

structure MCPServerConfig where
  type : Option String := none
  command : Option String := none
  args : Option (List String) := none
  url : Option String := none
  headers : Option (List (String × String)) := none
  env : Option (List (String × String)) := none
deriving DecidableEq, Repr

/-- `MCPServerConfig.model_dump` with `exclude_none=True`: the key/value
pairs of the serialized config, `None` fields omitted, in field order. -/
def MCPServerConfig.dump (c : MCPServerConfig) : List (String × JVal) :=
  (match c.type with | some v => [("type", JVal.str v)] | none => []) ++
  (match c.command with | some v => [("command", JVal.str v)] | none => []) ++
  (match c.args with | some v => [("args", JVal.arr v)] | none => []) ++
  (match c.url with | some v => [("url", JVal.str v)] | none => []) ++
  (match c.headers with | some v => [("headers", JVal.obj v)] | none => []) ++
  (match c.env with | some v => [("env", JVal.obj v)] | none => [])

structure PluginAuthor where
  name : String
  email : Option String := none
deriving DecidableEq, Repr

structure PluginConfig where
  name : String
  description : String := ""
  version : String := "1.0.0"
  author : Option PluginAuthor := none
  homepage : Option String := none
  repository : Option String := none
  mcpServers : List (String × MCPServerConfig) := []
deriving DecidableEq, Repr

/-- `MCPInfo.get_server_name`:
`self.name.lower().replace(" ", "-").replace("_", "-")`. -/
def get_server_name (info : MCPInfo) : String :=
  ⟨((info.name.toList.map Char.toLower).map
      fun c => if c = ' ' then '-' else c).map
    fun c => if c = '_' then '-' else c⟩

/-- The server-config part of `PluginGenerator._create_plugin_config`
(lines 58-72).  The Python guard is
`if mcp_info.connection_type == "http" and mcp_info.http_url:` — the
second conjunct is truthiness, false for `None` and for `""`. -/
def create_server_config (info : MCPInfo) (plugin_name : String) :
    MCPServerConfig :=
  if info.connection_type = "http" ∧ truthyStr info.http_url then
    { type := some "http", url := info.http_url }
  else
    let base : MCPServerConfig :=
      { command := some
          (if info.install_command = "" then "npx" else info.install_command)
        args := some
          (if info.install_args = [] then ["-y", "mcp-server-" ++ plugin_name]
           else info.install_args) }
    if info.env_vars = [] then base
    else
      { base with
          env := some (info.env_vars.map fun v => (v, "$\x7b" ++ v ++ "\x7d")) }

/-- `PluginGenerator._create_plugin_config`. -/
def create_plugin_config (info : MCPInfo) (plugin_name : String) :
    PluginConfig :=
  { name := plugin_name
    description :=
      if info.description = "" then "MCP server: " ++ info.name
      else info.description
    version := "1.0.0"
    author := if info.author = "" then none else some { name := info.author }
    homepage := info.homepage
    repository :=
      match info.homepage with
      | some h => if ¬h = "" ∧ strContains h "github" then some h else none
      | none => none
    mcpServers := [(get_server_name info, create_server_config info plugin_name)] }

/-- Counterexample to C4 as stated: `http_url = Some ""` is non-None but
Python-falsy, so the builder takes the stdio branch — the serialized
config carries a `command` key and no `type` key, where the claim
asserts `type = "http"` and no `command`/`args` keys. -/
theorem create_server_config_empty_url :
    ("command", JVal.str "npx") ∈
        (create_server_config
          { name := "n", connection_type := "http", http_url := some "",
            source_url := "u" } "n").dump ∧
      ∀ kv ∈ (create_server_config
          { name := "n", connection_type := "http", http_url := some "",
            source_url := "u" } "n").dump, kv.1 ≠ "type" := by decide

/-- C4 (amended): an http record with a non-empty (truthy) URL
serializes to exactly `{type: "http", url: …}` — no `command`/`args`
keys — and a stdio record with an empty `install_command` serializes
with `command = "npx"`. -/
theorem create_server_config_dump (info : MCPInfo) (plugin_name : String) :
    (∀ u, info.connection_type = "http" → info.http_url = some u → u ≠ "" →
      (create_server_config info plugin_name).dump =
          [("type", JVal.str "http"), ("url", JVal.str u)] ∧
        ∀ kv ∈ (create_server_config info plugin_name).dump,
          kv.1 ≠ "command" ∧ kv.1 ≠ "args") ∧
    (info.connection_type = "stdio" → info.install_command = "" →
      ("command", JVal.str "npx") ∈
        (create_server_config info plugin_name).dump) := by
  constructor
  · intro u h1 h2 hu
    have hcfg : create_server_config info plugin_name =
        { type := some "http", url := info.http_url } := by
      unfold create_server_config
      rw [if_pos ⟨h1, by simp [h2, truthyStr, hu]⟩]
    rw [hcfg, h2]
    constructor
    · rfl
    · intro kv hkv
      simp [MCPServerConfig.dump] at hkv
      rcases hkv with h | h <;> simp [h]
  · intro h1 h2
    have hne :
        ¬(info.connection_type = "http" ∧ truthyStr info.http_url = true) := by
      rintro ⟨hh, -⟩
      rw [h1] at hh
      simp at hh
    unfold create_server_config
    rw [if_neg hne]
    by_cases he : info.env_vars = [] <;>
      simp [he, MCPServerConfig.dump, h2]

/-- Witness for C4 on concrete http and stdio records. -/
theorem create_server_config_dump_witness :
    (create_server_config
        { name := "n", connection_type := "http",
          http_url := some "https://x/y", source_url := "u" } "n").dump =
        [("type", JVal.str "http"), ("url", JVal.str "https://x/y")] ∧
      ("command", JVal.str "npx") ∈
        (create_server_config
          { name := "n", connection_type := "stdio", source_url := "u" }
          "n").dump :=
  ⟨((create_server_config_dump
        { name := "n", connection_type := "http",
          http_url := some "https://x/y", source_url := "u" } "n").1
      "https://x/y" (by decide) (by decide) (by decide)).1,
   (create_server_config_dump
        { name := "n", connection_type := "stdio", source_url := "u" }
        "n").2 (by decide) (by decide)⟩

/-! ### `PluginGenerator._sanitize_name`

Python's `\w` on `str` also admits Unicode word characters; the ASCII
fragment is modelled.  The hyphen-shape properties proved below hold for
any choice of the kept-character class, and the concrete test inputs are
ASCII. -/

def isWordChar (c : Char) : Bool := c.isAlphanum || c = '_'

/-- Complement of the class removed by `re.sub(r"[^\w\s-]", "", …)`. -/
def keepChar (c : Char) : Bool := isWordChar c || isSpaceChar c || c = '-'

/-- Scanner for `re.sub(class+, "-", s)`: `inRun` records whether the
previous character belonged to the current run (leftmost-greedy run
replacement: one hyphen per maximal run). -/
def subRunsGo (q : Char → Bool) : Bool → List Char → List Char
  | _, [] => []
  | inRun, c :: cs =>
    if q c then
      if inRun then subRunsGo q true cs else '-' :: subRunsGo q true cs
    else c :: subRunsGo q false cs

/-- `re.sub` of a one-character-class `+` pattern with `"-"`. -/
def subRuns (q : Char → Bool) (l : List Char) : List Char :=
  subRunsGo q false l

/-- Python `str.strip("-")`. -/
def stripHyphens (l : List Char) : List Char :=
  ((l.dropWhile fun c => c = '-').reverse.dropWhile fun c => c = '-').reverse

/-- `PluginGenerator._sanitize_name`. -/
def sanitize_name (l : List Char) : List Char :=
  let s4 := stripHyphens (subRuns (fun c => c = '-')
    (subRuns (fun c => isSpaceChar c || c = '_')
      ((l.map Char.toLower).filter keepChar)))
  if s4 = [] then "unknown-plugin".toList else s4

/-- No two consecutive hyphens. -/
def noDoubleHyphen (l : List Char) : Prop :=
  List.Chain' (fun a b => ¬(a = '-' ∧ b = '-')) l

theorem subRunsGo_hyph_head (cs : List Char) (d : Char)
    (h : (subRunsGo (fun c => c = '-') true cs).head? = some d) : d ≠ '-' := by
  induction cs with
  | nil => simp [subRunsGo] at h
  | cons c cs ih =>
    by_cases hc : c = '-'
    · rw [subRunsGo, if_pos (by simp [hc]), if_pos rfl] at h
      exact ih h
    · rw [subRunsGo, if_neg (by simp [hc])] at h
      simp at h
      rw [← h]
      exact hc

theorem subRuns_hyph_chain (b : Bool) (cs : List Char) :
    noDoubleHyphen (subRunsGo (fun c => c = '-') b cs) := by
  induction cs generalizing b with
  | nil => simp [subRunsGo, noDoubleHyphen]
  | cons c cs ih =>
    by_cases hc : c = '-'
    · cases b with
      | true =>
        rw [subRunsGo, if_pos (by simp [hc]), if_pos rfl]
        exact ih true
      | false =>
        rw [subRunsGo, if_pos (by simp [hc]), if_neg (by simp)]
        refine List.chain'_cons'.mpr ⟨?_, ih true⟩
        intro d hd
        exact fun hcontra => subRunsGo_hyph_head cs d hd hcontra.2
    · rw [subRunsGo, if_neg (by simp [hc])]
      refine List.chain'_cons'.mpr ⟨?_, ih false⟩
      intro d _
      exact fun hcontra => hc hcontra.1

theorem head_dropWhile (p : Char → Bool) (l : List Char) (a : Char)
    (h : (l.dropWhile p).head? = some a) : p a = false := by
  induction l with
  | nil => simp [List.dropWhile] at h
  | cons c t ih =>
    by_cases hc : p c
    · rw [List.dropWhile_cons, if_pos hc] at h
      exact ih h
    · rw [List.dropWhile_cons, if_neg hc] at h
      simp at h
      rw [← h]
      exact Bool.of_not_eq_true hc

theorem chain_reverse_symm (l : List Char) (h : noDoubleHyphen l) :
    noDoubleHyphen l.reverse := by
  rw [noDoubleHyphen, List.chain'_reverse]
  exact List.Chain'.imp (fun a b hab hba => hab ⟨hba.2, hba.1⟩) h

theorem stripHyphens_good (m : List Char) (hm : noDoubleHyphen m) :
    (stripHyphens m).head? ≠ some '-' ∧
      (stripHyphens m).getLast? ≠ some '-' ∧
      noDoubleHyphen (stripHyphens m) := by
  unfold stripHyphens
  refine ⟨?_, ?_, ?_⟩
  · intro h
    obtain ⟨t, ht⟩ :=
      (List.dropWhile_suffix (l := (m.dropWhile fun c => c = '-').reverse)
        (p := fun c => c = '-'))
    have hpre : (((m.dropWhile fun c => c = '-').reverse.dropWhile
        fun c => c = '-').reverse) ++ t.reverse =
        m.dropWhile fun c => c = '-' := by
      have := congrArg List.reverse ht
      simpa [List.reverse_append] using this
    have hhead : ((m.dropWhile fun c => c = '-').head? = some '-') := by
      rw [← hpre]
      cases hx : (((m.dropWhile fun c => c = '-').reverse.dropWhile
          fun c => c = '-').reverse) with
      | nil => rw [hx] at h; simp at h
      | cons a s =>
        rw [hx] at h
        simp at h
        simp [hx, h]
    have := head_dropWhile (fun c => c = '-') m '-' hhead
    simp at this
  · intro h
    rw [List.getLast?_reverse] at h
    have := head_dropWhile (fun c => c = '-')
      ((m.dropWhile fun c => c = '-').reverse) '-' h
    simp at this
  · refine chain_reverse_symm _ ?_
    have h1 : noDoubleHyphen (m.dropWhile fun c => c = '-') :=
      hm.suffix (List.dropWhile_suffix _)
    have h2 := chain_reverse_symm _ h1
    exact h2.suffix (List.dropWhile_suffix _)

/-- C7: the kebab-case sanitizer maps `"My Cool MCP!!"` to
`"my-cool-mcp"` and `"___"` to `"unknown-plugin"`, and for every input
its output has no leading hyphen, no trailing hyphen, and no two
consecutive hyphens. -/
theorem sanitize_name_spec :
    sanitize_name "My Cool MCP!!".toList = "my-cool-mcp".toList ∧
      sanitize_name "___".toList = "unknown-plugin".toList ∧
      ∀ l : List Char,
        (sanitize_name l).head? ≠ some '-' ∧
          (sanitize_name l).getLast? ≠ some '-' ∧
          noDoubleHyphen (sanitize_name l) := by
  refine ⟨by decide, by decide, ?_⟩
  intro l
  simp only [sanitize_name]
  split
  · exact ⟨by decide, by decide, by simp [noDoubleHyphen, List.chain'_cons]⟩
  · exact stripHyphens_good _ (subRuns_hyph_chain false _)

/-! ## `core/marketplace.py` -/

structure MarketplacePlugin where
  name : String
  source : String
  description : String := ""
  category : Option String := none
  homepage : Option String := none
deriving DecidableEq, Repr

/-- The entry built by `Marketplace.add_plugin` (lines 67-75). -/
def make_marketplace_entry (plugin_name source : String) (info : MCPInfo) :
    MarketplacePlugin :=
  { name := plugin_name
    source := source
    description :=
      if info.description = "" then "MCP server: " ++ info.name
      else info.description
    category := some "mcp"
    homepage := info.homepage }

/-- The `for idx, p in enumerate(config.plugins)` scan of
`Marketplace.add_plugin`: index of the first entry with the given name. -/
def findNameIdx (n : String) : List MarketplacePlugin → Option Nat
  | [] => none
  | p :: t => if p.name = n then some 0 else (findNameIdx n t).map (· + 1)

/-- The catalog-list transformation of `Marketplace.add_plugin`:
replace in place at the first index with the same name, else append. -/
def add_plugin (ps : List MarketplacePlugin) (e : MarketplacePlugin) :
    List MarketplacePlugin :=
  match findNameIdx e.name ps with
  | some i => ps.set i e
  | none => ps ++ [e]

/-- `Marketplace.remove_plugin` as a state transformer: returns
(returned boolean, catalog after the call, whether the catalog file was
rewritten).  When nothing is filtered out the filtered list is discarded
and the file is not saved. -/
def remove_plugin (ps : List MarketplacePlugin) (n : String) :
    Bool × List MarketplacePlugin × Bool :=
  let filtered := ps.filter fun p => !(p.name = n)
  if filtered.length < ps.length then (true, filtered, true)
  else (false, ps, false)

theorem findNameIdx_eq_none_iff (n : String) (ps : List MarketplacePlugin) :
    findNameIdx n ps = none ↔ ∀ p ∈ ps, p.name ≠ n := by
  induction ps with
  | nil => simp [findNameIdx]
  | cons p t ih =>
    by_cases hp : p.name = n
    · simp [findNameIdx, hp]
    · simp [findNameIdx, hp, ih]

theorem findNameIdx_set_self (n : String) (e : MarketplacePlugin)
    (hen : e.name = n) :
    ∀ (ps : List MarketplacePlugin) (i : Nat), findNameIdx n ps = some i →
      findNameIdx n (ps.set i e) = some i := by
  intro ps
  induction ps with
  | nil => intro i h; simp [findNameIdx] at h
  | cons p t ih =>
    intro i h
    by_cases hp : p.name = n
    · simp [findNameIdx, hp] at h
      subst h
      simp [List.set_cons_zero, findNameIdx, hen]
    · simp [findNameIdx, hp] at h
      obtain ⟨i', hi', rfl⟩ := h
      simp [List.set_cons_succ, findNameIdx, hp, ih i' hi']

theorem findNameIdx_append_one (n : String) (e : MarketplacePlugin)
    (hen : e.name = n) (ps : List MarketplacePlugin)
    (h : findNameIdx n ps = none) :
    findNameIdx n (ps ++ [e]) = some ps.length := by
  induction ps with
  | nil => simp [findNameIdx, hen]
  | cons p t ih =>
    by_cases hp : p.name = n
    · simp [findNameIdx, hp] at h
    · simp [findNameIdx, hp] at h ⊢
      exact ih h

theorem countP_set_found (n : String) (e : MarketplacePlugin)
    (hen : e.name = n) :
    ∀ (ps : List MarketplacePlugin) (i : Nat), findNameIdx n ps = some i →
      (ps.set i e).countP (fun p => p.name = n) =
        ps.countP (fun p => p.name = n) := by
  intro ps
  induction ps with
  | nil => intro i h; simp [findNameIdx] at h
  | cons p t ih =>
    intro i h
    by_cases hp : p.name = n
    · simp [findNameIdx, hp] at h
      subst h
      simp [List.set_cons_zero, List.countP_cons, hp, hen]
    · simp [findNameIdx, hp] at h
      obtain ⟨i', hi', rfl⟩ := h
      simp [List.set_cons_succ, List.countP_cons, hp, ih i' hi']

theorem countP_pos_of_found (n : String) (ps : List MarketplacePlugin)
    (i : Nat) (h : findNameIdx n ps = some i) :
    1 ≤ ps.countP (fun p => p.name = n) := by
  induction ps generalizing i with
  | nil => simp [findNameIdx] at h
  | cons p t ih =>
    by_cases hp : p.name = n
    · simp [List.countP_cons, hp]
    · simp [findNameIdx, hp] at h
      obtain ⟨i', hi', rfl⟩ := h
      simpa [List.countP_cons, hp] using ih i' hi'

theorem get_set_found (n : String) (e : MarketplacePlugin) :
    ∀ (ps : List MarketplacePlugin) (i : Nat), findNameIdx n ps = some i →
      (ps.set i e)[i]? = some e := by
  intro ps
  induction ps with
  | nil => intro i h; simp [findNameIdx] at h
  | cons p t ih =>
    intro i h
    by_cases hp : p.name = n
    · simp [findNameIdx, hp] at h
      subst h
      simp
    · simp [findNameIdx, hp] at h
      obtain ⟨i', hi', rfl⟩ := h
      simpa using ih i' hi'

theorem set_append_length (ps : List MarketplacePlugin)
    (e e' : MarketplacePlugin) :
    (ps ++ [e]).set ps.length e' = ps ++ [e'] := by
  induction ps with
  | nil => rfl
  | cons p t ih => simp [List.set_cons_succ, ih]

theorem get_append_length (ps : List MarketplacePlugin)
    (e' : MarketplacePlugin) : (ps ++ [e'])[ps.length]? = some e' := by
  induction ps with
  | nil => rfl
  | cons p t ih => simp [ih]

theorem countP_eq_zero_of_none (n : String) (ps : List MarketplacePlugin)
    (h : findNameIdx n ps = none) :
    ps.countP (fun p => p.name = n) = 0 := by
  rw [List.countP_eq_zero]
  intro p hp
  simpa using (findNameIdx_eq_none_iff n ps).mp h p hp

/-- C2: `add_plugin` upserts by name.  On a catalog with at most one
entry of the given name, adding twice leaves exactly one entry with that
name, holding the second call's data, at the position the entry occupied
after the first insertion; a name not yet present is appended at the
end. -/
theorem add_plugin_upsert (ps : List MarketplacePlugin)
    (e e' : MarketplacePlugin) (hname : e.name = e'.name)
    (hcount : ps.countP (fun p => p.name = e'.name) ≤ 1) :
    (add_plugin (add_plugin ps e) e').countP
        (fun p => p.name = e'.name) = 1 ∧
      (add_plugin (add_plugin ps e) e')[
          (findNameIdx e'.name ps).getD ps.length]? = some e' ∧
      (findNameIdx e'.name ps = none → add_plugin ps e = ps ++ [e]) := by
  cases hf : findNameIdx e'.name ps with
  | some i =>
    have h1 : add_plugin ps e = ps.set i e := by
      unfold add_plugin
      rw [hname, hf]
    have h2 : findNameIdx e'.name (ps.set i e) = some i :=
      findNameIdx_set_self e'.name e hname ps i hf
    have h3 : add_plugin (ps.set i e) e' = (ps.set i e).set i e' := by
      unfold add_plugin
      rw [h2]
    refine ⟨?_, ?_, by intro h; exact absurd h (by simp)⟩
    · rw [h1, h3, countP_set_found e'.name e' rfl _ i h2,
        countP_set_found e'.name e hname ps i hf]
      exact le_antisymm hcount (countP_pos_of_found e'.name ps i hf)
    · rw [h1, h3]
      simpa using get_set_found e'.name e' (ps.set i e) i h2
  | none =>
    have h1 : add_plugin ps e = ps ++ [e] := by
      unfold add_plugin
      rw [hname, hf]
    have h2 : findNameIdx e'.name (ps ++ [e]) = some ps.length :=
      findNameIdx_append_one e'.name e hname ps hf
    have h3 : add_plugin (ps ++ [e]) e' = ps ++ [e'] := by
      unfold add_plugin
      rw [h2]
      exact set_append_length ps e e'
    refine ⟨?_, ?_, fun _ => h1⟩
    · rw [h1, h3, List.countP_append,
        countP_eq_zero_of_none e'.name ps hf]
      simp [List.countP_cons]
    · rw [h1, h3]
      simp [get_append_length ps e']

/-- Witness for C2 on a two-step concrete run against a one-entry
catalog. -/
theorem add_plugin_upsert_witness :
    (add_plugin (add_plugin
          [{ name := "bar", source := "./bar" }]
          { name := "foo", source := "./v1" })
        { name := "foo", source := "./v2" }).countP
        (fun p => p.name = "foo") = 1 ∧
      (add_plugin (add_plugin
          [{ name := "bar", source := "./bar" }]
          { name := "foo", source := "./v1" })
        { name := "foo", source := "./v2" })[
          (findNameIdx "foo"
            [{ name := "bar", source := "./bar" }]).getD 1]? =
        some { name := "foo", source := "./v2" } := by
  have h := add_plugin_upsert [{ name := "bar", source := "./bar" }]
    { name := "foo", source := "./v1" } { name := "foo", source := "./v2" }
    (by decide) (by decide)
  exact ⟨h.1, h.2.1⟩

/-- C10: `remove_plugin` filters out every entry with the given name,
returns `true` exactly when at least one entry matched, and on a miss
returns `false` without rewriting the catalog file. -/
theorem remove_plugin_spec (ps : List MarketplacePlugin) (n : String) :
    ((remove_plugin ps n).1 = true ↔ ∃ p ∈ ps, p.name = n) ∧
      ((remove_plugin ps n).1 = true →
        (remove_plugin ps n).2.1 = ps.filter (fun p => !(p.name = n)) ∧
          (remove_plugin ps n).2.2 = true ∧
          ∀ p ∈ (remove_plugin ps n).2.1, p.name ≠ n) ∧
      ((remove_plugin ps n).1 = false →
        (remove_plugin ps n).2.1 = ps ∧ (remove_plugin ps n).2.2 = false) := by
  by_cases h : (ps.filter fun p => !(p.name = n)).length < ps.length
  · have hex : ∃ p ∈ ps, p.name = n := by
      obtain ⟨x, hx, hnx⟩ := List.length_filter_lt_length_iff_exists.mp h
      exact ⟨x, hx, by simpa using hnx⟩
    refine ⟨by simp [remove_plugin, h, hex], ?_, ?_⟩
    · intro _
      refine ⟨by simp [remove_plugin, h], by simp [remove_plugin, h], ?_⟩
      intro p hp
      rw [remove_plugin] at hp
      simp only [h, if_pos] at hp
      have := (List.mem_filter.mp hp).2
      simpa using this
    · intro hfalse
      rw [remove_plugin] at hfalse
      simp [h] at hfalse
  · have hnoex : ¬∃ p ∈ ps, p.name = n := by
      intro ⟨x, hx, hnx⟩
      exact h (List.length_filter_lt_length_iff_exists.mpr
        ⟨x, hx, by simp [hnx]⟩)
    refine ⟨by simp [remove_plugin, h, hnoex], ?_, ?_⟩
    · intro htrue
      rw [remove_plugin] at htrue
      simp [h] at htrue
    · intro _
      exact ⟨by simp [remove_plugin, h], by simp [remove_plugin, h]⟩

/-- Witness for C10: removing a missing name returns `false` and leaves
the catalog and its file untouched; removing a present (duplicated) name
removes both occurrences. -/
theorem remove_plugin_spec_witness :
    (remove_plugin [{ name := "a", source := "s" }] "zzz").2.1 =
        [{ name := "a", source := "s" }] ∧
      (remove_plugin
        [{ name := "a", source := "s1" },
         { name := "b", source := "s" },
         { name := "a", source := "s2" }] "a").2.1 =
        [{ name := "b", source := "s" }] := by
  have h1 := (remove_plugin_spec [{ name := "a", source := "s" }] "zzz").2.2
    (by decide)
  have h2 := (remove_plugin_spec
    [{ name := "a", source := "s1" }, { name := "b", source := "s" },
     { name := "a", source := "s2" }] "a").2.1 (by decide)
  exact ⟨h1.1, by rw [h2.1]; decide⟩

/-! ### C8: environment-variable extraction -/

theorem fastmcp_env_loop_all (P : String → Prop)
    (hP : ∀ m, 3 < m.length → fastmcpEnvStop m = false → P m) :
    ∀ (ms acc : List String), (∀ v ∈ acc, P v) →
      ∀ v ∈ fastmcp_env_loop acc ms, P v := by
  intro ms
  induction ms with
  | nil => intro acc hacc v hv; exact hacc v hv
  | cons m rest ih =>
    intro acc hacc v hv
    rw [fastmcp_env_loop] at hv
    by_cases hc :
        (!acc.contains m && decide (3 < m.length) && !fastmcpEnvStop m) = true
    · rw [if_pos hc] at hv
      refine ih (acc ++ [m]) ?_ v hv
      intro w hw
      rcases List.mem_append.mp hw with hw | hw
      · exact hacc w hw
      · simp at hw
        subst hw
        simp only [Bool.and_eq_true, Bool.not_eq_true', decide_eq_true_eq]
          at hc
        exact hP w hc.1.2 hc.2
    · rw [if_neg hc] at hv
      exact ih acc hacc v hv

/-- C8 (amended): each extractor's environment-variable extraction
deduplicates (set semantics), keeps only entries longer than 3
characters that miss that extractor's own stoplist — fastmcp.me:
substrings `url`, `uri`, `http`, `json`, `xml` (case-insensitive);
smithery: substrings `type`, `string`, `number`, `boolean` — and returns
at most 10 entries. -/
theorem extract_env_vars_spec :
    (∀ ms : List String,
      (fastmcp_extract_env_vars ms).length ≤ 10 ∧
        (fastmcp_extract_env_vars ms).Nodup ∧
        ∀ v ∈ fastmcp_extract_env_vars ms,
          3 < v.length ∧ fastmcpEnvStop v = false) ∧
    (∀ ms : List String,
      (smithery_extract_env_vars ms).length ≤ 10 ∧
        (smithery_extract_env_vars ms).Nodup ∧
        ∀ v ∈ smithery_extract_env_vars ms,
          3 < v.length ∧ smitheryEnvStop v = false) := by
  constructor
  · intro ms
    refine ⟨?_, ?_, ?_⟩
    · simp [fastmcp_extract_env_vars]
    · exact ((fastmcp_env_loop [] ms).nodup_dedup).sublist
        (List.take_sublist _ _)
    · intro v hv
      have hv' : v ∈ fastmcp_env_loop [] ms := by
        have := (List.take_sublist 10 (fastmcp_env_loop [] ms).dedup).mem hv
        exact (List.mem_dedup).mp this
      exact fastmcp_env_loop_all
        (fun w => 3 < w.length ∧ fastmcpEnvStop w = false)
        (fun m h1 h2 => ⟨h1, h2⟩) ms [] (by simp) v hv'
  · intro ms
    refine ⟨?_, ?_, ?_⟩
    · simp [smithery_extract_env_vars]
    · exact ((ms.nodup_dedup).filter _).sublist (List.take_sublist _ _)
    · intro v hv
      have hv' := (List.take_sublist 10 _).mem hv
      have := (List.mem_filter.mp hv').2
      simp only [Bool.and_eq_true, Bool.not_eq_true', decide_eq_true_eq]
        at this
      exact this

/-- Counterexample to C8 as stated: the claim's stoplist examples
`"TYPE"` and `"STRING"` are not dropped by the fastmcp.me extractor,
whose stoplist is `url/uri/http/json/xml`; both captures are returned
verbatim. -/
theorem fastmcp_env_keeps_type_and_string :
    fastmcp_extract_env_vars ["TYPE"] = ["TYPE"] ∧
      fastmcp_extract_env_vars ["STRING"] = ["STRING"] := by decide

/-! ## `core/converter.py`: `Converter.convert`

File writes, the page fetch and the catalog upsert are side effects; the
model logs them so that "performs no fetch / no writes / no catalog
change" is the statement "the effect log is empty".  Oracles cover the
outcome of `source.fetch` and of the optional LLM stage. -/

inductive Effect where
  | fetchPage
  | llmCall
  | writePlugin
  | catalogUpsert
deriving DecidableEq, Repr

structure ConvertOracle where
  /-- outcome of `source.fetch(url)`: the record, or the message of the
  exception it raised. -/
  fetchResult : Except String MCPInfo := .error "fetch failed"
  /-- `self.gemini_parser and self.use_llm`. -/
  llmConfigured : Bool := false
  /-- outcome of `_fetch_html` in the enhancement block (`none` raised). -/
  llmHtml : Option String := none
  /-- parsed reply of `enhance_mcp_info`'s model call. -/
  llmResponse : Option Enhancements := none
  /-- reply of `generate_plugin_description` (`none` raised). -/
  descResponse : Option String := none

def supported_sources_note : String :=
  "\nSupported sources:\n  - fastmcp.me: https://fastmcp.me/MCP/Details/\x7bid\x7d/\x7bname\x7d\n  - smithery.ai: https://smithery.ai/server/\x7bname\x7d"

/-- The `ConversionError` message for an unknown URL (converter lines
82-87). -/
def unknown_url_message (u : String) : String :=
  "Unknown URL format: " ++ u ++ supported_sources_note

def normalize_url_str (s : String) : String := ⟨normalize_url s.toList⟩

/-- `Converter._get_source`: first of `[FastMCPSource, SmitherySource]`
whose `can_handle` accepts the URL. -/
def get_source_kind (u : String) : Option SourceType :=
  if fastmcp_can_handle u.toList then some .FASTMCP
  else if smithery_can_handle u.toList then some .SMITHERY
  else none

/-- `Converter.convert` as a function from the URL and the oracle to the
result (`ok` = generated plugin directory name, `error` = the
`ConversionError` message) together with the log of side effects. -/
def convert (url : String) (o : ConvertOracle) :
    Except String String × List Effect :=
  let u := normalize_url_str url
  if detect_source u.toList = .UNKNOWN then
    (.error (unknown_url_message u), [])
  else
    match get_source_kind u with
    | none => (.error ("No parser available for URL: " ++ u), [])
    | some _ =>
      match o.fetchResult with
      | .error e => (.error ("Failed to parse MCP page: " ++ e), [.fetchPage])
      | .ok info =>
        let enhanced :=
          if o.llmConfigured then
            match o.llmHtml with
            | none => info
            | some _ =>
              let step1 := (enhance_mcp_info info o.llmResponse).1
              if step1.description = "" ∨ step1.description.length < 20 then
                match o.descResponse with
                | some d => { step1 with description := d }
                | none => step1
              else step1
          else info
        let plugin_name : String := ⟨sanitize_name enhanced.name.toList⟩
        (.ok plugin_name,
          [Effect.fetchPage] ++
            (if o.llmConfigured then [Effect.llmCall] else []) ++
            [Effect.writePlugin, Effect.catalogUpsert])

theorem containsSub_append_right (p b : List Char)
    (hb : containsSub p b = true) :
    ∀ a : List Char, containsSub p (a ++ b) = true := by
  intro a
  induction a with
  | nil => simpa using hb
  | cons c t ih => simp [containsSub, ih]

/-- C9: on a URL whose normalized form matches no known source,
`convert` returns a `ConversionError` (fatal to that call only, not a
crash) whose message names both supported URL templates, with an empty
effect log: no fetch, no plugin files written, no catalog change. -/
theorem convert_unknown_url (url : String) (o : ConvertOracle)
    (h : detect_source (normalize_url_str url).toList = .UNKNOWN) :
    convert url o =
        (.error (unknown_url_message (normalize_url_str url)), []) ∧
      strContains (unknown_url_message (normalize_url_str url))
          "https://fastmcp.me/MCP/Details/\x7bid\x7d/\x7bname\x7d" = true ∧
      strContains (unknown_url_message (normalize_url_str url))
          "https://smithery.ai/server/\x7bname\x7d" = true := by
  refine ⟨by simp only [convert]; rw [if_pos h], ?_, ?_⟩ <;>
    · unfold strContains unknown_url_message
      rw [show ("Unknown URL format: " ++ normalize_url_str url ++
            supported_sources_note).toList =
          ("Unknown URL format: " ++ normalize_url_str url).toList ++
            supported_sources_note.toList from String.data_append _ _]
      exact containsSub_append_right _ _ (by decide) _

/-- Witness for C9 at the concrete unknown URL
`https://example.com/x`. -/
theorem convert_unknown_url_witness :
    convert "https://example.com/x" {} =
      (.error (unknown_url_message
        (normalize_url_str "https://example.com/x")), []) :=
  (convert_unknown_url "https://example.com/x" {} (by decide)).1

end Mcp2Plugin
